import Mathlib

/-!
Verification development for the CharMorph fitting subsystem
(`lib/fit_calc.py`).

The Python source is shallowly embedded:
* vertex coordinates and weights become exact rationals (`ℚ`);
* a Python dict used as a sparse weight row becomes an association list
  (`Row`), with `dget`/`dset` modelling `d.get(k, v0)` / `d[k] = v`
  (Python dicts preserve insertion order: `dset` replaces in place or
  appends);
* the list of per-vertex weight dicts becomes `List Row`, updated through
  `modifyIdx`;
* numpy array primitives (`add.reduceat`, `repeat`, elementwise ops) are
  embedded as list functions, including the documented `reduceat` corner
  case `out[i] = a[ind[i]]` when `ind[i] >= ind[i+1]`;
* external spatial queries (the `mathutils` BVH tree and KD tree) are
  passed in as explicit query functions: the BVH `find_nearest` and the
  barycentric interpolation `poly_3d_calc` become oracle parameters, the
  KD tree `find_n` is modelled as exact n-nearest selection with respect
  to a caller-supplied distance function;
* Python runtime failures that the embedded code can actually reach
  (`ZeroDivisionError`, `AttributeError`) become `Except String` results.
-/

/-- 3-D point with exact rational coordinates. -/
abbrev Vec3 : Type := ℚ × ℚ × ℚ

/-- A sparse weight row: a Python dict from character-vertex id to weight,
as an insertion-ordered association list. -/
abbrev Row : Type := List (ℕ × ℚ)

/-- Association-list lookup with decidable key equality
(models Python dict indexing). -/
def alookup {κ β : Type} [DecidableEq κ] : List (κ × β) → κ → Option β
  | [], _ => none
  | p :: t, k => if p.1 = k then some p.2 else alookup t k

/-- `d.get(k, v0)` on a Python dict. -/
def dget (d : Row) (k : ℕ) (v0 : ℚ) : ℚ := (alookup d k).getD v0

/-- `d[k] = v` on a Python dict: replace in place if the key is present,
else append (insertion order preserved). -/
def dset : Row → ℕ → ℚ → Row
  | [], k, v => [(k, v)]
  | p :: t, k, v => if p.1 = k then (k, v) :: t else p :: dset t k v

/-- In-place update of element `i` of a Python list (`weights[i]` mutation);
out-of-range indices leave the list unchanged (the embedded claims carry
the length hypotheses under which Python would not raise `IndexError`). -/
def modifyIdx {α : Type} : List α → ℕ → (α → α) → List α
  | [], _, _ => []
  | x :: t, 0, f => f x :: t
  | x :: t, n + 1, f => x :: modifyIdx t n f

/-- Python `max(list)` on a nonempty list (`0` as junk value on `[]`,
where Python raises `ValueError`; every use below excludes that case). -/
def listMax : List ℚ → ℚ
  | [] => 0
  | x :: t => t.foldl max x

/-- `max(d.values())` on a weight row. -/
def dvalmax (d : Row) : ℚ := listMax (d.map Prod.snd)

/-- Source constant `dist_thresh = 0.1`. -/
def dist_thresh : ℚ := 1 / 10

/-- Source constant `epsilon = 1e-30`. -/
def epsilon : ℚ := 1 / 10 ^ 30

/-- Source constant `repsilon = 1e-5`. -/
def repsilon : ℚ := 1 / 10 ^ 5

/-- One row of `weights_convert`: the inner loop keeps exactly the entries
with `v >= thresh`, where `thresh = max(d.values()) / 32` when `cut` and
`thresh = 0` otherwise (the Python variable is initialised to `0` and
never changes when `cut` is false). -/
def cutRow (cut : Bool) (d : Row) : Row :=
  d.filter (fun p => decide ((if cut then dvalmax d / 32 else 0) ≤ p.2))

/-- The filtered rows the `weights_convert` loop flattens, in order. -/
def filteredRows (weights : List Row) (cut : Bool) : List Row :=
  weights.map (cutRow cut)

/-- `positions[i] = len(idx)` at the start of row `i`: running total of the
kept-entry counts of the earlier rows, starting from `acc`. -/
def positionsOf {α : Type} : List (List α) → ℕ → List ℕ
  | [], _ => []
  | r :: t, acc => acc :: positionsOf t (acc + r.length)

/-- `weights_convert(weights, cut)` from `lib/fit_calc.py`: flattens the
per-vertex dicts into `(positions, idx, wresult)`, keeping per row exactly
the entries at or above the threshold (see `cutRow`). -/
def weights_convert (weights : List Row) (cut : Bool) :
    List ℕ × List ℕ × List ℚ :=
  let rows := filteredRows weights cut
  (positionsOf rows 0, (rows.flatten).map Prod.fst, (rows.flatten).map Prod.snd)

/-- `cnt` as computed by `weights_normalize`:
`cnt[:-1] = positions[1:] - positions[:-1]`, `cnt[-1] = m - positions[-1]`
with `m = len(wresult)`. -/
def cntOf (m : ℕ) : List ℕ → List ℕ
  | [] => []
  | [p] => [m - p]
  | p :: q :: rest => (q - p) :: cntOf m (q :: rest)

/-- `numpy.add.reduceat(a, ind)`: segment sums between consecutive indices,
the last segment running to the end of `a`; when `ind[i] >= ind[i+1]`
numpy yields the single element `a[ind[i]]`. -/
def reduceat (a : List ℚ) : List ℕ → List ℚ
  | [] => []
  | [i] => [((a.drop i).sum)]
  | i :: j :: rest =>
    (if i < j then ((a.drop i).take (j - i)).sum else a.getD i 0)
      :: reduceat a (j :: rest)

/-- `x.repeat(cnt)` for matching-length arrays: element `i` repeated
`cnt[i]` times, flattened. -/
def repeatCnt : List ℚ → List ℕ → List ℚ
  | [], _ => []
  | _, [] => []
  | x :: xs, c :: cs => List.replicate c x ++ repeatCnt xs cs

/-- `weights_normalize(positions, wresult)` from `lib/fit_calc.py`:
`wresult /= numpy.add.reduceat(wresult, positions).repeat(cnt)` — every
entry is divided by the sum of its own row. Returns the updated array. -/
def weights_normalize (positions : List ℕ) (wresult : List ℚ) : List ℚ :=
  List.zipWith (· / ·) wresult
    (repeatCnt (reduceat wresult positions) (cntOf wresult.length positions))

/-- `calc_fit(arr, weights)` from `lib/fit_calc.py`:
`numpy.add.reduceat(arr[weights[1]] * weights[2], weights[0])` — gather
`arr` along the flat index array, multiply elementwise by the flat weight
array, and sum each row segment. -/
def calc_fit (arr : List ℚ) (weights : List ℕ × List ℕ × List ℚ) :
    List ℚ :=
  reduceat (List.zipWith (fun i q => arr.getD i 0 * q) weights.2.1 weights.2.2)
    weights.1

/-- Elementwise scalar multiple of a value array (`k * X` in numpy). -/
def smulArr (k : ℚ) (x : List ℚ) : List ℚ := x.map (fun a => k * a)

/-- Elementwise sum of two value arrays of matching shape (`X + Y`). -/
def addArr (x y : List ℚ) : List ℚ := List.zipWith (· + ·) x y

/-- The `Geometry` container of `lib/fit_calc.py`: vertex positions plus
faces given as lists of vertex indices.  The lazily-built spatial indices
(`kd`, `bvh`) are represented by the explicit query functions passed to
the weight passes below. -/
structure Geometry where
  verts : List Vec3
  faces : List (List ℕ)
deriving DecidableEq, Repr

/-- `Geometry.__init__` as written in the source: it stores `verts` and
`faces` unconditionally, performing no validation whatsoever, so it can
never fail (embedded in `Except` to make the absence of an error path a
statable fact). -/
def Geometry.init (verts : List Vec3) (faces : List (List ℕ)) :
    Except String Geometry :=
  Except.ok ⟨verts, faces⟩

/-- `Geometry.verts_enum` = `enumerate(self.verts)`. -/
def Geometry.verts_enum (g : Geometry) : List (ℕ × Vec3) := g.verts.enum

/-- "Face indices always reference existing vertices" — the structural
validity the spec expects the constructor to check. -/
def validFaces (verts : List Vec3) (faces : List (List ℕ)) : Prop :=
  ∀ f ∈ faces, ∀ i ∈ f, i < verts.length

/-- One successful `bvh.find_nearest(v, dist_thresh)` answer: the hit
location, the index of the hit face and the surface distance. `none`
stands for the no-hit-within-radius case (`loc is None`). -/
structure Hit where
  loc : Vec3
  fidx : ℕ
  fdist : ℚ
deriving DecidableEq, Repr

/-- Oracle for `mathutils.bvhtree.BVHTree.find_nearest` bounded by the
fixed search radius. -/
abbrev BvhQuery : Type := Vec3 → Option Hit

/-- Oracle for `mathutils.interpolate.poly_3d_calc(face_verts, loc)`:
barycentric weights of `loc` with respect to the listed face vertices. -/
abbrev BaryQuery : Type := List Vec3 → Vec3 → List ℚ

/-- Gather `verts[face]` (numpy fancy indexing) for the barycentric call. -/
def gatherVerts (verts : List Vec3) (face : List ℕ) : List Vec3 :=
  face.map (fun j => verts.getD j (0, 0, 0))

/-- The reassigned `fdist` of `calc_weights_direct`:
`fdist = (1 - fdist / dist_thresh) / max(fdist, epsilon)`. -/
def fdScale (h : Hit) : ℚ :=
  (1 - h.fdist / dist_thresh) / max h.fdist epsilon

/-- The face-vertex/barycentric pairs `zip(face, poly_3d_calc(verts[face],
loc))` iterated by both surface passes. -/
def facePairs (bary : BaryQuery) (verts : List Vec3) (faces : List (List ℕ))
    (h : Hit) : List (ℕ × ℚ) :=
  (faces.getD h.fidx []).zip
    (bary (gatherVerts verts (faces.getD h.fidx [])) h.loc)

/-- The inner loop of `calc_weights_direct`:
`d[vi] = max(d.get(vi, 0), bw * fdist)` over `zip(face, poly_3d_calc(...))`. -/
def directRowUpdate (bary : BaryQuery) (g : Geometry) (h : Hit) (d : Row) :
    Row :=
  (facePairs bary g.verts g.faces h).foldl
    (fun d p => dset d p.1 (max (dget d p.1 0) (p.2 * fdScale h))) d

/-- One iteration of the `calc_weights_direct` loop: asset vertex
`p = (i, v)`; a BVH miss leaves the table alone, a hit updates row `i`. -/
def directStep (bvh : BvhQuery) (bary : BaryQuery) (char_geom : Geometry)
    (w : List Row) (p : ℕ × Vec3) : List Row :=
  match bvh p.2 with
  | none => w
  | some h => modifyIdx w p.1 (directRowUpdate bary char_geom h)

/-- `calc_weights_direct(weights, char_geom, asset_verts)` from
`lib/fit_calc.py`: for each asset vertex `i`, query the character BVH; no
hit leaves row `i` alone, a hit max-merges the scaled barycentric weights
of the hit face into row `i`. -/
def calc_weights_direct (bvh : BvhQuery) (bary : BaryQuery)
    (weights : List Row) (char_geom : Geometry) (asset_verts : List Vec3) :
    List Row :=
  asset_verts.enum.foldl (directStep bvh bary char_geom) weights

/-- A Python value passed as the `char_geom` argument of
`calc_weights_reverse`.  The rigger path of the source passes a raw
`numpy.ndarray` (`cg.verts`) instead of a `Geometry`, which makes the
`char_geom.verts_enum()` attribute access fail at run time; the sum type
keeps that dynamic-typing error representable. -/
inductive PyCharGeom where
  | geom (g : Geometry)
  | ndarray (a : List Vec3)
deriving DecidableEq, Repr

/-- `char_geom.verts_enum()`: succeeds on a `Geometry`, raises
`AttributeError` on a numpy array. -/
def pyVertsEnum : PyCharGeom → Except String (List (ℕ × Vec3))
  | PyCharGeom.geom g => Except.ok g.verts_enum
  | PyCharGeom.ndarray _ =>
    Except.error "AttributeError: numpy.ndarray object has no attribute verts_enum"

/-- The body of `calc_weights_reverse` once `verts_enum` has succeeded:
for each character vertex `(i, cvert)`, query the asset BVH; on a hit,
for each face vertex `vi`, `weights[vi][i] = reduce_func(weights[vi].get(i, 0),
bw * fdist)` with the tighter `1e-15` epsilon. -/
def reverseFold (bvh : BvhQuery) (bary : BaryQuery)
    (reduce_func : ℚ → ℚ → ℚ) (asset_geom : Geometry)
    (weights : List Row) (ve : List (ℕ × Vec3)) : List Row :=
  ve.foldl
    (fun w p =>
      match bvh p.2 with
      | none => w
      | some h =>
        let face := asset_geom.faces.getD h.fidx []
        let fd := (1 - h.fdist / dist_thresh) / max h.fdist (1 / 10 ^ 15)
        (face.zip (bary (gatherVerts asset_geom.verts face) h.loc)).foldl
          (fun w q =>
            modifyIdx w q.1
              (fun d => dset d p.1 (reduce_func (dget d p.1 0) (q.2 * fd))))
          w)
    weights

/-- `calc_weights_reverse(weights, char_geom, asset_geom, reduce_func)`
from `lib/fit_calc.py`.  The first statement executed is
`char_geom.verts_enum()` (via the loop header), so a non-`Geometry`
argument raises before any weight is touched. -/
def calc_weights_reverse (bvh : BvhQuery) (bary : BaryQuery)
    (weights : List Row) (char_geom : PyCharGeom) (asset_geom : Geometry)
    (reduce_func : ℚ → ℚ → ℚ) : Except String (List Row) := do
  let ve ← pyVertsEnum char_geom
  Except.ok (reverseFold bvh bary reduce_func asset_geom weights ve)

/-- Ordering used to model the KD tree answer list: by distance, ties by
vertex index (`mathutils.kdtree` returns hits sorted by distance). -/
def kdLe (a b : ℕ × ℚ) : Prop := a.2 < b.2 ∨ (a.2 = b.2 ∧ a.1 ≤ b.1)

instance : DecidableRel kdLe := fun _ _ =>
  inferInstanceAs (Decidable (_ ∨ _))

/-- Modelled from the spec: `utils.kdtree_from_verts_enum` (not under
`src/`) wraps `mathutils.kdtree.KDTree`, inserting every enumerated vertex;
`kd.find_n(p, n)` then returns the `n` nearest inserted vertices with
their distances ("find the N nearest character vertices via the
nearest-vertex index").  Embedded as: sort all `(index, distance)` pairs
by distance (ties by index) and take the first `n`, with the metric
`dist` a caller-supplied parameter. -/
def find_n (dist : Vec3 → Vec3 → ℚ) (ve : List (ℕ × Vec3)) (p : Vec3)
    (n : ℕ) : List (ℕ × ℚ) :=
  (List.insertionSort kdLe (ve.map (fun q => (q.1, dist p q.2)))).take n

/-- One row of `calc_weights_kd`:
`{idx: (1 - dist/maxdist) / max(dist, eps) for _, idx, dist in pdata}`,
failing exactly where Python does — `max([])` on an empty candidate list
(`ValueError`) and `dist / 0.0` when the largest distance is zero
(`ZeroDivisionError`). -/
def kdRow (pdata : List (ℕ × ℚ)) (eps : ℚ) : Except String Row :=
  if pdata = [] then Except.error "ValueError: max() arg is an empty sequence"
  else if listMax (pdata.map Prod.snd) = 0 then
    Except.error "ZeroDivisionError: float division by zero"
  else
    Except.ok (pdata.map (fun q =>
      (q.1, (1 - q.2 / listMax (pdata.map Prod.snd)) / max q.2 eps)))

/-- `calc_weights_kd(kd, verts, _epsilon, n)` from `lib/fit_calc.py`: one
dict per query vertex, built from the `n` nearest character vertices. -/
def calc_weights_kd (dist : Vec3 → Vec3 → ℚ) (ve : List (ℕ × Vec3))
    (verts : List Vec3) (eps : ℚ) (n : ℕ) : Except String (List Row) :=
  verts.mapM (fun v => kdRow (find_n dist ve v n) eps)

/-- The inner accumulation of `_calc_weights_kd_reverse` for one character
vertex `i` and one KD answer `q = (vi, dist)`:
`weights[vi][i] = weights[vi].get(i, 0) + 1 / max(dist**2, repsilon)`. -/
def riggerInnerStep (i : ℕ) (w : List Row) (q : ℕ × ℚ) : List Row :=
  modifyIdx w q.1
    (fun d => dset d i (dget d i 0 + 1 / max (q.2 ^ 2) repsilon))

/-- One outer iteration of `_calc_weights_kd_reverse`: character vertex
`p = (i, vert)`, accumulated over its 4 nearest asset vertices. -/
def riggerOuterStep (dist : Vec3 → Vec3 → ℚ) (asset_verts : List Vec3)
    (w : List Row) (p : ℕ × Vec3) : List Row :=
  (find_n dist asset_verts.enum p.2 4).foldl (riggerInnerStep p.1) w

/-- `RiggerFitCalculator._calc_weights_kd_reverse(weights, asset_verts)`
from `lib/fit_calc.py`: for every character vertex `(i, vert)` of
`self.geom.verts_enum()`, accumulate
`weights[vi][i] = weights[vi].get(i, 0) + 1 / max(dist**2, repsilon)` over
the 4 nearest asset vertices `(vi, dist)` (KD query on
`utils.kdtree_from_verts(asset_verts)`, see `find_n`). -/
def riggerKdReverse (dist : Vec3 → Vec3 → ℚ) (weights : List Row)
    (charEnum : List (ℕ × Vec3)) (asset_verts : List Vec3) : List Row :=
  charEnum.foldl (riggerOuterStep dist asset_verts) weights

/-- `RiggerFitCalculator.get_weights(afd)` from `lib/fit_calc.py`: KD
seeding with `repsilon` and `n = 16`, the 4-nearest reverse coverage pass,
then `calc_weights_reverse(weights, cg.verts, afd.geom, lambda a, b: a + b)`
— note the source passes the raw vertex array `cg.verts`, not the
`Geometry` `cg` — and finally `weights_convert(weights, False)` with no
normalization.  `cg` is `self.get_char_geom(afd)` (the character
`Geometry`) and `verts` is `afd.geom.verts`. -/
def rigger_get_weights (dist : Vec3 → Vec3 → ℚ) (bvh : BvhQuery)
    (bary : BaryQuery) (cg : Geometry) (afd_geom : Geometry) :
    Except String (List ℕ × List ℕ × List ℚ) := do
  let verts := afd_geom.verts
  let w0 ← calc_weights_kd dist cg.verts_enum verts repsilon 16
  let w1 := riggerKdReverse dist w0 cg.verts_enum verts
  let w2 ← calc_weights_reverse bvh bary w1 (PyCharGeom.ndarray cg.verts)
    afd_geom (fun a b => a + b)
  Except.ok (weights_convert w2 false)

/-- A Blender mesh as `FitCalculator._get_asset_geom` sees it: an object
identity (distinct Python objects compare unequal as dict keys), the
data-block `name`, the optional `charmorph_fit_id` custom property, and
the geometry payload that `geom_mesh` extracts. -/
structure MeshData where
  objId : ℕ
  name : String
  fitId : Option String
  verts : List Vec3
  faces : List (List ℕ)
deriving DecidableEq

/-- A key actually stored in or looked up from `geom_cache`.  The source
annotates the cache as `dict[str, Geometry]` and looks up a string key,
but the store statement `self.geom_cache[data] = result` uses the mesh
object itself, so both key kinds occur at run time. -/
inductive CacheKey where
  | str (s : String)
  | mesh (objId : ℕ)
deriving DecidableEq

/-- The session geometry cache (a Python dict; modelled as an association
list with the newest binding in front). -/
abbrev GeomCache : Type := List (CacheKey × Geometry)

/-- `geom_mesh(mesh)` = `Geometry(charlib.get_basis(mesh, None, False),
mesh_faces(mesh))`; the basis vertex positions and the face list are the
payload carried by `MeshData`. -/
def geom_mesh (m : MeshData) : Geometry := ⟨m.verts, m.faces⟩

/-- `FitCalculator._get_asset_geom(data)` from `lib/fit_calc.py`:
`key = data.get("charmorph_fit_id", data.name)`; look up `key`; on a miss
build the geometry and execute `self.geom_cache[data] = result` — storing
under the mesh object, not under `key`.  Returns the geometry, the updated
cache, and whether a fresh `Geometry` was constructed. -/
def getAssetGeom (cache : GeomCache) (data : MeshData) :
    Geometry × GeomCache × Bool :=
  let key := CacheKey.str (data.fitId.getD data.name)
  match alookup cache key with
  | some g => (g, cache, false)
  | none => (geom_mesh data, (CacheKey.mesh data.objId, geom_mesh data) :: cache, true)

/-- Row `i` of a flat `(positions, ..., wresult)` sparse matrix: the
segment of the flat array starting at `positions[i]` with the row length
`cnt[i]` that `weights_normalize` computes (`m` = flat array length). -/
def rowSlice {α : Type} (positions : List ℕ) (m : ℕ) (arr : List α)
    (i : ℕ) : List α :=
  (arr.drop (positions.getD i 0)).take ((cntOf m positions).getD i 0)

/-- Row-level "never decreases": every key present in `d` is still present
in `d'` with a value at least as large. -/
def rle (d d' : Row) : Prop :=
  ∀ k v, alookup d k = some v → ∃ v', alookup d' k = some v' ∧ v ≤ v'

/-- Weight-table-level "never decreases": same number of rows, and every
entry of every row survives with a value at least as large. -/
def wle (w w' : List Row) : Prop :=
  w.length = w'.length ∧ ∀ j, rle (w.getD j []) (w'.getD j [])

/-- All entries of a weight table are nonnegative (true of every table the
pipeline builds; used as a hypothesis where a claim needs it). -/
def wnn (w : List Row) : Prop :=
  ∀ j k v, alookup (w.getD j []) k = some v → 0 ≤ v

/-- Squared Euclidean distance — the concrete distance function used to
instantiate the KD-tree metric parameter in witnesses (monotone stand-in
for the Euclidean distance: it induces the same nearest-neighbour order). -/
def sqDist (a b : Vec3) : ℚ :=
  (a.1 - b.1) ^ 2 + (a.2.1 - b.2.1) ^ 2 + (a.2.2 - b.2.2) ^ 2

/-! ### Association-list and list-update lemmas -/

theorem alookup_dset_self (d : Row) (k : ℕ) (v : ℚ) :
    alookup (dset d k v) k = some v := by
  induction d with
  | nil => simp [dset, alookup]
  | cons p t ih =>
    by_cases h : p.1 = k
    · simp [dset, h, alookup]
    · simp [dset, h, alookup, ih]

theorem alookup_dset_ne (d : Row) (k : ℕ) (v : ℚ) (k' : ℕ) (h : k' ≠ k) :
    alookup (dset d k v) k' = alookup d k' := by
  induction d with
  | nil => simp [dset, alookup, Ne.symm h]
  | cons p t ih =>
    by_cases hp : p.1 = k
    · subst hp
      simp [dset, alookup, Ne.symm h]
    · simp [dset, hp, alookup, ih]

theorem dget_eq_alookup (d : Row) (k : ℕ) (v0 : ℚ) :
    dget d k v0 = (alookup d k).getD v0 := rfl

theorem length_modifyIdx {α : Type} (l : List α) (i : ℕ) (f : α → α) :
    (modifyIdx l i f).length = l.length := by
  induction l generalizing i with
  | nil => rfl
  | cons x t ih => cases i <;> simp [modifyIdx, ih]

theorem modifyIdx_of_ge {α : Type} (l : List α) (i : ℕ) (f : α → α)
    (h : l.length ≤ i) : modifyIdx l i f = l := by
  induction l generalizing i with
  | nil => rfl
  | cons x t ih =>
    cases i with
    | zero => simp at h
    | succ n => simp only [modifyIdx]; rw [ih n (by simpa using h)]

theorem getD_modifyIdx_self {α : Type} (l : List α) (i : ℕ) (f : α → α)
    (d : α) (h : i < l.length) :
    (modifyIdx l i f).getD i d = f (l.getD i d) := by
  induction l generalizing i with
  | nil => simp at h
  | cons x t ih =>
    cases i with
    | zero => simp [modifyIdx]
    | succ n => simpa [modifyIdx] using ih n (by simpa using h)

theorem getD_modifyIdx_ne {α : Type} (l : List α) (i j : ℕ) (f : α → α)
    (d : α) (h : j ≠ i) :
    (modifyIdx l i f).getD j d = l.getD j d := by
  induction l generalizing i j with
  | nil => rfl
  | cons x t ih =>
    cases i with
    | zero => cases j with
      | zero => exact absurd rfl h
      | succ m => simp [modifyIdx]
    | succ n => cases j with
      | zero => simp [modifyIdx]
      | succ m => simpa [modifyIdx] using ih n m (fun hh => h (by omega))

/-! ### Monotonicity machinery for the accumulation passes -/

theorem rle_refl (d : Row) : rle d d :=
  fun _ v h => ⟨v, h, le_refl v⟩

theorem rle_trans {a b c : Row} (h1 : rle a b) (h2 : rle b c) : rle a c := by
  intro k v h
  obtain ⟨v1, hv1, hle1⟩ := h1 k v h
  obtain ⟨v2, hv2, hle2⟩ := h2 k v1 hv1
  exact ⟨v2, hv2, le_trans hle1 hle2⟩

theorem rle_dset_max (d : Row) (k : ℕ) (x : ℚ) :
    rle d (dset d k (max (dget d k 0) x)) := by
  intro k' v h
  by_cases hk : k' = k
  · subst hk
    refine ⟨max (dget d k' 0) x, alookup_dset_self d k' _, ?_⟩
    rw [dget_eq_alookup, h]
    exact le_max_of_le_left (le_refl v)
  · exact ⟨v, by rw [alookup_dset_ne d k _ k' hk]; exact h, le_refl v⟩

theorem rle_dset_add (d : Row) (k : ℕ) (x : ℚ) (hx : 0 ≤ x) :
    rle d (dset d k (dget d k 0 + x)) := by
  intro k' v h
  by_cases hk : k' = k
  · subst hk
    refine ⟨dget d k' 0 + x, alookup_dset_self d k' _, ?_⟩
    rw [dget_eq_alookup, h]
    simpa using hx
  · exact ⟨v, by rw [alookup_dset_ne d k _ k' hk]; exact h, le_refl v⟩

theorem wle_refl (w : List Row) : wle w w :=
  ⟨rfl, fun _ => rle_refl _⟩

theorem wle_trans {a b c : List Row} (h1 : wle a b) (h2 : wle b c) :
    wle a c :=
  ⟨h1.1.trans h2.1, fun j => rle_trans (h1.2 j) (h2.2 j)⟩

theorem wle_modifyIdx (w : List Row) (i : ℕ) (f : Row → Row)
    (hf : ∀ d, rle d (f d)) : wle w (modifyIdx w i f) := by
  refine ⟨(length_modifyIdx w i f).symm, fun j => ?_⟩
  by_cases hj : j = i
  · subst hj
    by_cases hi : j < w.length
    · rw [getD_modifyIdx_self w j f [] hi]
      exact hf _
    · rw [modifyIdx_of_ge w j f (le_of_not_lt hi)]
      exact rle_refl _
  · rw [getD_modifyIdx_ne w i j f [] hj]
    exact rle_refl _

theorem foldl_wle {β : Type} (step : List Row → β → List Row) (l : List β)
    (w : List Row) (h : ∀ s x, x ∈ l → wle s (step s x)) :
    wle w (List.foldl step w l) := by
  induction l generalizing w with
  | nil => exact wle_refl w
  | cons x t ih =>
    exact wle_trans (h w x (List.mem_cons_self x t))
      (ih (step w x) (fun s y hy => h s y (List.mem_cons_of_mem x hy)))

theorem foldl_rle {β : Type} (step : Row → β → Row) (l : List β) (d : Row)
    (h : ∀ s x, x ∈ l → rle s (step s x)) :
    rle d (List.foldl step d l) := by
  induction l generalizing d with
  | nil => exact rle_refl d
  | cons x t ih =>
    exact rle_trans (h d x (List.mem_cons_self x t))
      (ih (step d x) (fun s y hy => h s y (List.mem_cons_of_mem x hy)))

/-! ### C7: the session geometry cache never hits -/

/-- **C7** (code bug): `FitCalculator._get_asset_geom` looks its cache up
by the string key `data.get("charmorph_fit_id", data.name)` but stores the
freshly built geometry under the mesh object itself
(`self.geom_cache[data] = result`), contradicting the declared
`geom_cache: dict[str, Geometry]` annotation.  Consequently a second call
with the very same mesh misses the cache again and constructs a new
`Geometry` (the `Bool` component records that a fresh object was built),
instead of returning the cached one as the claim states. -/
theorem C7_second_call_rebuilds (m : MeshData) :
    (getAssetGeom [] m).2.2 = true ∧
    (getAssetGeom (getAssetGeom [] m).2.1 m).2.2 = true := by
  constructor
  · rfl
  · simp [getAssetGeom, alookup]

/-! ### C3: the rigger weight combination crashes -/

/-- **C3** (code bug): `RiggerFitCalculator.get_weights` does call
`calc_weights_reverse` with the additive reduction `lambda a, b: a + b`
and never normalizes, as the claim says — but it passes the raw vertex
array `cg.verts` where `calc_weights_reverse` expects a `Geometry`, so the
`char_geom.verts_enum()` access raises `AttributeError` before any
combination happens: the combined, unnormalized rows are never produced.
First conjunct: `calc_weights_reverse` on a numpy array argument always
raises.  Second conjunct: `get_weights` therefore never returns a result,
for every possible geometry and every behaviour of the spatial queries. -/
theorem C3_rigger_get_weights_crashes :
    (∀ (bvh : BvhQuery) (bary : BaryQuery) (w : List Row) (a : List Vec3)
        (g : Geometry) (f : ℚ → ℚ → ℚ),
        calc_weights_reverse bvh bary w (PyCharGeom.ndarray a) g f =
          Except.error
            "AttributeError: numpy.ndarray object has no attribute verts_enum") ∧
    (∀ (dist : Vec3 → Vec3 → ℚ) (bvh : BvhQuery) (bary : BaryQuery)
        (cg afd_geom : Geometry),
        (rigger_get_weights dist bvh bary cg afd_geom).isOk = false) := by
  constructor
  · intro bvh bary w a g f
    rfl
  · intro dist bvh bary cg afd_geom
    unfold rigger_get_weights
    cases h : calc_weights_kd dist cg.verts_enum afd_geom.verts repsilon 16 with
    | error e => simp [h, Except.isOk, Except.toBool, Bind.bind, Except.bind]
    | ok w0 =>
      simp [h, Except.isOk, Except.toBool, Bind.bind, Except.bind,
        calc_weights_reverse, pyVertsEnum]

/-! ### C8: Geometry construction performs no validation -/

/-- **C8** (counterexample): constructing a `Geometry` whose single face
references vertex indices `0, 1, 2` of an *empty* vertex buffer succeeds
and retains the malformed object — `Geometry.__init__` just stores its
arguments, so no `GeometryError` is raised at construction (indeed no such
error type exists anywhere in the source). -/
theorem C8_cex_invalid_construction_succeeds :
    Geometry.init [] [[0, 1, 2]] = Except.ok ⟨[], [[0, 1, 2]]⟩ ∧
    ¬ validFaces [] [[0, 1, 2]] := by
  refine ⟨rfl, fun h => ?_⟩
  simpa using h [0, 1, 2] (by simp) 0 (by simp)

/-- **C8** (amended): `Geometry` construction never fails and performs no
validation: for every vertex buffer and face list — out-of-range face
indices and empty vertex buffers included — the constructor returns the
object with the arguments stored verbatim.  Structural problems are not
detected at construction; they can only surface later, inside the external
`mathutils` library, when a lazy spatial index is first built. -/
theorem C8_construction_is_total (verts : List Vec3)
    (faces : List (List ℕ)) :
    Geometry.init verts faces = Except.ok { verts := verts, faces := faces } :=
  rfl

/-! ### C2: pruning, counterexample part -/

/-- **C2** (counterexample): on the nonempty row `{0: -1}` the pruning
threshold is `max(row)/32 = -1/32`, and `-1 >= -1/32` is false, so
`weights_convert` with `cut=true` removes *every* entry of this nonempty
row — refuting "it never removes every entry of a nonempty row".  (With
nonnegative weights, the only kind the pipeline produces, the row maximum
always survives; see the amended theorem.) -/
theorem C2_cex_negative_row_emptied :
    weights_convert [[(0, -1)]] true = ([0], [], []) ∧
    ([((0 : ℕ), (-1 : ℚ))] : Row) ≠ [] := by
  constructor
  · norm_num [weights_convert, filteredRows, cutRow, dvalmax, listMax,
      positionsOf]
  · simp

/-! ### Structural lemmas for the flat sparse representation (C1, C2) -/

theorem reduceat_positionsOf :
    ∀ (ws : List (List ℚ)), (∀ l ∈ ws, l ≠ []) → ∀ pre : List ℚ,
      reduceat (pre ++ ws.flatten) (positionsOf ws pre.length) =
        ws.map List.sum
  | [], _, pre => by simp [positionsOf, reduceat]
  | [l], _, pre => by
    simp [positionsOf, reduceat, List.drop_left]
  | l :: r :: t, h, pre => by
    have hl : l ≠ [] := h l (by simp)
    have ih := reduceat_positionsOf (r :: t)
      (fun x hx => h x (List.mem_cons_of_mem _ hx)) (pre ++ l)
    rw [List.length_append, List.append_assoc] at ih
    simp only [positionsOf, List.flatten_cons] at ih ⊢
    rw [reduceat]
    have hlt : pre.length < pre.length + l.length := by
      have := List.length_pos.mpr hl
      omega
    rw [if_pos hlt]
    have hseg : ((pre ++ (l ++ (r ++ t.flatten))).drop pre.length).take
        (pre.length + l.length - pre.length) = l := by
      rw [List.drop_left, Nat.add_sub_cancel_left]
      exact List.take_left l _
    rw [hseg, ih]
    simp

theorem cntOf_positionsOf {α : Type} :
    ∀ (ws : List (List α)) (acc : ℕ),
      cntOf (acc + ws.flatten.length) (positionsOf ws acc) =
        ws.map List.length
  | [], _ => by simp [positionsOf, cntOf]
  | [l], acc => by simp [positionsOf, cntOf]
  | l :: r :: t, acc => by
    have ih := cntOf_positionsOf (r :: t) (acc + l.length)
    have hm : acc + (l :: r :: t).flatten.length =
        acc + l.length + (r :: t).flatten.length := by
      simp [List.flatten_cons]
      omega
    rw [hm]
    simp only [positionsOf] at ih ⊢
    rw [cntOf, Nat.add_sub_cancel_left, ih]
    simp

theorem zipWith_div_replicate :
    ∀ (l : List ℚ) (s : ℚ),
      List.zipWith (· / ·) l (List.replicate l.length s) =
        l.map (fun x => x / s)
  | [], _ => rfl
  | x :: t, s => by
    simp only [List.length_cons, List.replicate_succ, List.zipWith_cons_cons,
      List.map_cons]
    rw [zipWith_div_replicate t s]

theorem repeatCnt_map :
    ∀ ws : List (List ℚ),
      repeatCnt (ws.map List.sum) (ws.map List.length) =
        (ws.map (fun l => List.replicate l.length l.sum)).flatten
  | [] => rfl
  | l :: t => by
    simp only [List.map_cons, repeatCnt, List.flatten_cons]
    rw [repeatCnt_map t]

theorem zipWith_div_flatten :
    ∀ ws : List (List ℚ),
      List.zipWith (· / ·) ws.flatten
          ((ws.map (fun l => List.replicate l.length l.sum)).flatten) =
        (ws.map (fun l => l.map (fun x => x / l.sum))).flatten
  | [] => rfl
  | l :: t => by
    simp only [List.map_cons, List.flatten_cons]
    rw [List.zipWith_append _ _ _ _ _ (by simp), zipWith_div_flatten t,
      zipWith_div_replicate l l.sum]

theorem rowSeg {α : Type} :
    ∀ (vs : List (List α)) (pre : List α) (i : ℕ), i < vs.length →
      ((pre ++ vs.flatten).drop ((positionsOf vs pre.length).getD i 0)).take
          ((vs.map List.length).getD i 0) =
        vs.getD i []
  | [], _, i, h => by simp at h
  | l :: t, pre, 0, _ => by
    simp only [positionsOf, List.getD_cons_zero, List.map_cons,
      List.flatten_cons]
    rw [List.drop_left, List.take_left]
  | l :: t, pre, i + 1, h => by
    have ih := rowSeg t (pre ++ l) i (by simpa using h)
    rw [List.length_append, List.append_assoc] at ih
    simpa only [positionsOf, List.getD_cons_succ, List.map_cons,
      List.flatten_cons] using ih

theorem positionsOf_eq_of_length {α β : Type} :
    ∀ (ws : List (List α)) (vs : List (List β)),
      ws.map List.length = vs.map List.length →
      ∀ acc, positionsOf ws acc = positionsOf vs acc
  | [], [], _, _ => rfl
  | [], v :: vs, h, _ => by simp at h
  | w :: ws, [], h, _ => by simp at h
  | w :: ws, v :: vs, h, acc => by
    simp only [List.map_cons, List.cons.injEq] at h
    simp only [positionsOf, h.1]
    rw [positionsOf_eq_of_length ws vs h.2]

theorem getD_map_eq {α β : Type} (g : List α → List β) (hg : g [] = []) :
    ∀ (ws : List (List α)) (i : ℕ), (ws.map g).getD i [] = g (ws.getD i [])
  | [], i => by simp [hg]
  | w :: ws, 0 => rfl
  | w :: ws, i + 1 => by
    simpa using getD_map_eq g hg ws i

theorem sum_map_div (l : List ℚ) (s : ℚ) :
    (l.map (fun x => x / s)).sum = l.sum / s := by
  induction l with
  | nil => simp
  | cons x t ih => simp [ih, add_div]

theorem weights_normalize_flatten (ws : List (List ℚ))
    (hne : ∀ l ∈ ws, l ≠ []) :
    weights_normalize (positionsOf ws 0) ws.flatten =
      (ws.map (fun l => l.map (fun x => x / l.sum))).flatten := by
  unfold weights_normalize
  have h1 : reduceat ws.flatten (positionsOf ws 0) = ws.map List.sum := by
    simpa using reduceat_positionsOf ws hne ([] : List ℚ)
  have h2 : cntOf ws.flatten.length (positionsOf ws 0) = ws.map List.length := by
    simpa using cntOf_positionsOf ws 0
  rw [h1, h2, repeatCnt_map, zipWith_div_flatten]

theorem length_map_norm (ws : List (List ℚ)) :
    ws.map List.length =
      (ws.map (fun l => l.map (fun x => x / l.sum))).map List.length := by
  rw [List.map_map]
  exact List.map_congr_left (fun l _ => (List.length_map l _).symm)

theorem rowSlice_normalized (ws : List (List ℚ))
    (hne : ∀ l ∈ ws, l ≠ []) (i : ℕ) (hi : i < ws.length) :
    rowSlice (positionsOf ws 0) ws.flatten.length
        (weights_normalize (positionsOf ws 0) ws.flatten) i =
      (ws.getD i []).map (fun x => x / (ws.getD i []).sum) := by
  rw [weights_normalize_flatten ws hne]
  unfold rowSlice
  have hcnt : cntOf ws.flatten.length (positionsOf ws 0) = ws.map List.length := by
    simpa using cntOf_positionsOf ws 0
  have hpos : positionsOf ws 0 =
      positionsOf (ws.map (fun l => l.map (fun x => x / l.sum))) 0 :=
    positionsOf_eq_of_length ws _ (length_map_norm ws) 0
  rw [hcnt, length_map_norm ws, hpos]
  have hseg := rowSeg (ws.map (fun l => l.map (fun x => x / l.sum)))
    ([] : List ℚ) i (by simpa using hi)
  simp only [List.nil_append, List.length_nil] at hseg
  rw [hseg]
  exact getD_map_eq _ rfl ws i

/-! ### C1: normalized rows sum to one -/

/-- **C1** (confirmed): for every per-vertex weight map fed through the
generic pipeline tail `weights_convert` (with its default `cut=True`)
followed by `weights_normalize`, every row of the resulting sparse matrix
— the segment of the flat weight array delimited by `positions` and the
`cnt` row lengths — sums to exactly `1`, provided each (post-pruning) row
is nonempty with positive sum; exact equality in particular places the sum
within the claimed `1e-6` of `1.0`. -/
theorem C1_normalized_row_sums (weights : List Row)
    (h : ∀ r ∈ filteredRows weights true,
        r ≠ [] ∧ 0 < (r.map Prod.snd).sum) :
    ∀ i < weights.length,
      (rowSlice (weights_convert weights true).1
          (weights_convert weights true).2.2.length
          (weights_normalize (weights_convert weights true).1
            (weights_convert weights true).2.2) i).sum = 1 ∧
      |(rowSlice (weights_convert weights true).1
          (weights_convert weights true).2.2.length
          (weights_normalize (weights_convert weights true).1
            (weights_convert weights true).2.2) i).sum - 1| ≤ 1 / 1000000 := by
  intro i hi
  have hc1 : (weights_convert weights true).1 =
      positionsOf ((filteredRows weights true).map (fun r => r.map Prod.snd)) 0 := by
    show positionsOf (filteredRows weights true) 0 = _
    exact positionsOf_eq_of_length _ _
      (by rw [List.map_map]
          exact List.map_congr_left (fun r _ => (List.length_map r _).symm)) 0
  have hc2 : (weights_convert weights true).2.2 =
      ((filteredRows weights true).map (fun r => r.map Prod.snd)).flatten := by
    show ((filteredRows weights true).flatten).map Prod.snd = _
    rw [List.map_flatten]
  have hne : ∀ l ∈ (filteredRows weights true).map (fun r => r.map Prod.snd),
      l ≠ [] := by
    intro l hl
    obtain ⟨r, hr, rfl⟩ := List.mem_map.mp hl
    simpa using (h r hr).1
  have hsum : ∀ l ∈ (filteredRows weights true).map (fun r => r.map Prod.snd),
      l.sum ≠ 0 := by
    intro l hl
    obtain ⟨r, hr, rfl⟩ := List.mem_map.mp hl
    exact ne_of_gt (h r hr).2
  have hiw : i < ((filteredRows weights true).map (fun r => r.map Prod.snd)).length := by
    simpa [filteredRows] using hi
  rw [hc1, hc2, rowSlice_normalized _ hne i hiw, sum_map_div]
  have hmem : ((filteredRows weights true).map (fun r => r.map Prod.snd)).getD i [] ∈
      (filteredRows weights true).map (fun r => r.map Prod.snd) := by
    rw [List.getD_eq_getElem?_getD, List.getElem?_eq_getElem hiw]
    exact List.getElem_mem hiw
  have hone := div_self (hsum _ hmem)
  exact ⟨hone, by rw [hone]; norm_num⟩

/-- Witness for C1 at the concrete weight map `[{0: 1, 1: 3}]`: the single
normalized row sums to `1`. -/
theorem C1_normalized_row_sums_witness :
    (rowSlice (weights_convert [[(0, 1), (1, 3)]] true).1
        (weights_convert [[(0, 1), (1, 3)]] true).2.2.length
        (weights_normalize (weights_convert [[(0, 1), (1, 3)]] true).1
          (weights_convert [[(0, 1), (1, 3)]] true).2.2) 0).sum = 1 :=
  (C1_normalized_row_sums [[(0, 1), (1, 3)]]
    (by
      intro r hr
      norm_num [filteredRows, cutRow, dvalmax, listMax] at hr
      subst hr
      exact ⟨by simp, by norm_num⟩)
    0 (by norm_num)).1

theorem rowSlice_conv {β : Type} (rows : List Row) (f : ℕ × ℚ → β)
    (i : ℕ) (hi : i < rows.length) :
    rowSlice (positionsOf rows 0) rows.flatten.length
        ((rows.flatten).map f) i =
      (rows.getD i []).map f := by
  unfold rowSlice
  rw [List.map_flatten]
  have hlen : rows.map List.length = (rows.map (List.map f)).map List.length := by
    rw [List.map_map]
    exact List.map_congr_left (fun r _ => (List.length_map r _).symm)
  have hflat : rows.flatten.length = (rows.map (List.map f)).flatten.length := by
    rw [← List.map_flatten, List.length_map]
  have hpos : positionsOf rows 0 = positionsOf (rows.map (List.map f)) 0 :=
    positionsOf_eq_of_length rows _ hlen 0
  rw [hflat, hpos]
  have hcnt : cntOf (rows.map (List.map f)).flatten.length
      (positionsOf (rows.map (List.map f)) 0) =
      (rows.map (List.map f)).map List.length := by
    simpa using cntOf_positionsOf (rows.map (List.map f)) 0
  rw [hcnt]
  have hseg := rowSeg (rows.map (List.map f)) ([] : List β) i
    (by simpa using hi)
  simp only [List.nil_append, List.length_nil] at hseg
  rw [hseg]
  exact getD_map_eq _ rfl rows i

theorem foldl_max_mem : ∀ (t : List ℚ) (x : ℚ), t.foldl max x ∈ x :: t
  | [], x => by simp [List.foldl]
  | y :: t, x => by
    have ih := foldl_max_mem t (max x y)
    rcases List.mem_cons.mp ih with h | h
    · rcases max_choice x y with hm | hm <;> rw [List.foldl_cons, h, hm] <;> simp
    · simp [List.foldl_cons, List.mem_cons_of_mem, h]

theorem dvalmax_mem (d : Row) (h : d ≠ []) : ∃ p ∈ d, p.2 = dvalmax d := by
  have hm : dvalmax d ∈ d.map Prod.snd := by
    unfold dvalmax listMax
    cases d with
    | nil => exact absurd rfl h
    | cons p t => simpa using foldl_max_mem (t.map Prod.snd) p.2
  obtain ⟨p, hp, hv⟩ := List.mem_map.mp hm
  exact ⟨p, hp, hv⟩

theorem mem_cutRow_true (d : Row) (p : ℕ × ℚ) :
    p ∈ cutRow true d ↔ p ∈ d ∧ dvalmax d / 32 ≤ p.2 := by
  unfold cutRow
  rw [List.mem_filter]
  simp

/-! ### C2: pruning keeps exactly the above-threshold entries -/

/-- **C2** (amended; confirmed for nonnegative rows): for every list of
nonempty per-row weight dictionaries whose per-row maximum is nonnegative
— the only kind the pipeline produces — `weights_convert` with `cut=true`
keeps in row `i` of the flat output exactly the entries of input row `i`
whose weight is `>= max(row)/32` (first two conjuncts: the `idx` and
`wresult` segments of row `i`; last conjunct: exact membership
characterization), never empties such a row, and always keeps its
strongest entry.  (Rows with a negative maximum are emptied instead: see
the counterexample theorem.) -/
theorem C2_cut_keeps_threshold (weights : List Row)
    (h : ∀ d ∈ weights, d ≠ [] ∧ 0 ≤ dvalmax d) :
    ∀ i < weights.length,
      rowSlice (weights_convert weights true).1
          (weights_convert weights true).2.2.length
          (weights_convert weights true).2.1 i =
        (cutRow true (weights.getD i [])).map Prod.fst ∧
      rowSlice (weights_convert weights true).1
          (weights_convert weights true).2.2.length
          (weights_convert weights true).2.2 i =
        (cutRow true (weights.getD i [])).map Prod.snd ∧
      cutRow true (weights.getD i []) ≠ [] ∧
      (∃ p ∈ cutRow true (weights.getD i []),
          p.2 = dvalmax (weights.getD i [])) ∧
      (∀ p : ℕ × ℚ, p ∈ cutRow true (weights.getD i []) ↔
          p ∈ weights.getD i [] ∧
            dvalmax (weights.getD i []) / 32 ≤ p.2) := by
  intro i hi
  have hirows : i < (filteredRows weights true).length := by
    simpa [filteredRows] using hi
  have hm : (weights_convert weights true).2.2.length =
      (filteredRows weights true).flatten.length := by
    show (((filteredRows weights true).flatten).map Prod.snd).length = _
    rw [List.length_map]
  have hrowd : (filteredRows weights true).getD i [] =
      cutRow true (weights.getD i []) :=
    getD_map_eq (cutRow true) rfl weights i
  have hd : weights.getD i [] ∈ weights := by
    rw [List.getD_eq_getElem?_getD, List.getElem?_eq_getElem hi]
    exact List.getElem_mem hi
  obtain ⟨hne, hnn⟩ := h _ hd
  have hmax := dvalmax_mem _ hne
  obtain ⟨p, hp, hpv⟩ := hmax
  have hkeep : p ∈ cutRow true (weights.getD i []) := by
    rw [mem_cutRow_true]
    exact ⟨hp, by rw [hpv]; exact div_le_self hnn (by norm_num)⟩
  refine ⟨?_, ?_, ?_, ⟨p, hkeep, hpv⟩, fun q => mem_cutRow_true _ q⟩
  · have := rowSlice_conv (filteredRows weights true) Prod.fst i hirows
    rw [hrowd] at this
    rw [hm]
    exact this
  · have := rowSlice_conv (filteredRows weights true) Prod.snd i hirows
    rw [hrowd] at this
    rw [hm]
    exact this
  · exact List.ne_nil_of_mem hkeep

/-- Witness for the amended C2 at `[{0: 1, 1: 3, 2: 1/100}]`: the entry
`2 ↦ 1/100` falls below `3/32` and is pruned; the others are kept, the
maximum among them. -/
theorem C2_cut_keeps_threshold_witness :
    rowSlice (weights_convert [[(0, 1), (1, 3), (2, 1/100)]] true).1
        (weights_convert [[(0, 1), (1, 3), (2, 1/100)]] true).2.2.length
        (weights_convert [[(0, 1), (1, 3), (2, 1/100)]] true).2.1 0 =
      (cutRow true [(0, 1), (1, 3), (2, 1/100)]).map Prod.fst :=
  (C2_cut_keeps_threshold [[(0, 1), (1, 3), (2, 1/100)]]
    (by
      intro d hd
      norm_num at hd
      subst hd
      refine ⟨by simp, ?_⟩
      norm_num [dvalmax, listMax])
    0 (by norm_num)).1

/-! ### C9: calc_fit is linear in the value array -/

theorem getD_smul (k : ℚ) :
    ∀ (X : List ℚ) (i : ℕ), (smulArr k X).getD i 0 = k * X.getD i 0
  | [], i => by simp [smulArr]
  | x :: t, 0 => rfl
  | x :: t, i + 1 => by simpa [smulArr] using getD_smul k t i

theorem getD_add :
    ∀ (X Y : List ℚ), X.length = Y.length →
      ∀ i, (addArr X Y).getD i 0 = X.getD i 0 + Y.getD i 0
  | [], [], _, i => by simp [addArr]
  | [], y :: t, h, _ => by simp at h
  | x :: t, [], h, _ => by simp at h
  | x :: tx, y :: ty, _, 0 => rfl
  | x :: tx, y :: ty, h, i + 1 => by
    simpa [addArr] using getD_add tx ty (by simpa using h) i

theorem sum_map_mul (k : ℚ) (l : List ℚ) :
    (l.map (fun x => k * x)).sum = k * l.sum := by
  induction l with
  | nil => simp
  | cons x t ih => simp [ih, mul_add]

theorem sum_zipWith_add :
    ∀ (a b : List ℚ), a.length = b.length →
      (List.zipWith (· + ·) a b).sum = a.sum + b.sum
  | [], [], _ => by simp
  | [], y :: t, h => by simp at h
  | x :: t, [], h => by simp at h
  | x :: ta, y :: tb, h => by
    simp only [List.zipWith_cons_cons, List.sum_cons]
    rw [sum_zipWith_add ta tb (by simpa using h)]
    ring

theorem reduceat_smul (k : ℚ) (a : List ℚ) :
    ∀ ind, reduceat (smulArr k a) ind = smulArr k (reduceat a ind)
  | [] => rfl
  | [i] => by
    simp only [reduceat, smulArr, List.map_drop]
    rw [← List.map_drop, sum_map_mul]
    rfl
  | i :: j :: rest => by
    have ih := reduceat_smul k a (j :: rest)
    simp only [reduceat]
    rw [ih]
    by_cases hij : i < j
    · simp only [if_pos hij, smulArr, ← List.map_drop, ← List.map_take,
        sum_map_mul]
      rfl
    · rw [if_neg hij, getD_smul k a i]
      simp [smulArr, if_neg hij]

theorem reduceat_add (a b : List ℚ) (hab : a.length = b.length) :
    ∀ ind, reduceat (addArr a b) ind =
      addArr (reduceat a ind) (reduceat b ind)
  | [] => rfl
  | [i] => by
    simp only [reduceat, addArr, List.drop_zipWith]
    rw [sum_zipWith_add _ _ (by simp [hab])]
    rfl
  | i :: j :: rest => by
    have ih := reduceat_add a b hab (j :: rest)
    simp only [reduceat]
    rw [ih]
    by_cases hij : i < j
    · simp only [if_pos hij, addArr, List.drop_zipWith, List.take_zipWith]
      rw [sum_zipWith_add _ _ (by simp [hab])]
      rfl
    · rw [if_neg hij, getD_add a b hab i]
      simp [addArr, if_neg hij]

theorem gather_smul (k : ℚ) (X : List ℚ) :
    ∀ (idx : List ℕ) (wres : List ℚ),
      List.zipWith (fun i q => (smulArr k X).getD i 0 * q) idx wres =
        smulArr k (List.zipWith (fun i q => X.getD i 0 * q) idx wres)
  | [], _ => by simp [smulArr]
  | i :: t, [] => by simp [smulArr]
  | i :: t, q :: tq => by
    simp only [List.zipWith_cons_cons]
    rw [getD_smul k X i, gather_smul k X t tq]
    simp [smulArr, mul_assoc]

theorem gather_add (X Y : List ℚ) (h : X.length = Y.length) :
    ∀ (idx : List ℕ) (wres : List ℚ),
      List.zipWith (fun i q => (addArr X Y).getD i 0 * q) idx wres =
        addArr (List.zipWith (fun i q => X.getD i 0 * q) idx wres)
          (List.zipWith (fun i q => Y.getD i 0 * q) idx wres)
  | [], _ => by simp [addArr]
  | i :: t, [] => by simp [addArr]
  | i :: t, q :: tq => by
    simp only [List.zipWith_cons_cons]
    rw [getD_add X Y h i, gather_add X Y h t tq]
    simp [addArr, add_mul]

/-- **C9** (confirmed): `calc_fit` — the `apply_weights` operation — is
linear in the per-character-vertex value array: scaling the array scales
the result, and (for arrays of matching shape) the result of a sum is the
sum of the results, for every weight matrix. -/
theorem C9_calc_fit_linear (X Y : List ℚ) (k : ℚ)
    (w : List ℕ × List ℕ × List ℚ) (h : X.length = Y.length) :
    calc_fit (smulArr k X) w = smulArr k (calc_fit X w) ∧
    calc_fit (addArr X Y) w = addArr (calc_fit X w) (calc_fit Y w) := by
  constructor
  · unfold calc_fit
    rw [gather_smul, reduceat_smul]
  · unfold calc_fit
    rw [gather_add X Y h, reduceat_add _ _ (by simp [List.length_zipWith])]

/-- Witness for C9 at `X = [1]`, `Y = [2]`, `k = 3` and the weight matrix
`([0], [0, 0], [1/2, 1/2])`. -/
theorem C9_calc_fit_linear_witness :
    calc_fit (smulArr 3 [1]) ([0], [0, 0], [1/2, 1/2]) =
      smulArr 3 (calc_fit [1] ([0], [0, 0], [1/2, 1/2])) ∧
    calc_fit (addArr [1] [2]) ([0], [0, 0], [1/2, 1/2]) =
      addArr (calc_fit [1] ([0], [0, 0], [1/2, 1/2]))
        (calc_fit [2] ([0], [0, 0], [1/2, 1/2])) :=
  C9_calc_fit_linear [1] [2] 3 ([0], [0, 0], [1/2, 1/2]) rfl

/-! ### C10: accumulation passes never decrease entries -/

theorem rle_directRowUpdate (bary : BaryQuery) (g : Geometry) (h : Hit)
    (d : Row) : rle d (directRowUpdate bary g h d) := by
  unfold directRowUpdate
  exact foldl_rle _ _ d (fun s q _ => rle_dset_max s q.1 _)

theorem wle_calc_weights_direct (bvh : BvhQuery) (bary : BaryQuery)
    (w : List Row) (g : Geometry) (av : List Vec3) :
    wle w (calc_weights_direct bvh bary w g av) := by
  unfold calc_weights_direct
  apply foldl_wle
  intro s p _
  rcases hbv : bvh p.2 with _ | h
  · simp only [directStep, hbv]
    exact wle_refl s
  · simp only [directStep, hbv]
    exact wle_modifyIdx s p.1 _ (rle_directRowUpdate bary g h)

theorem wle_reverseFold_max (bvh : BvhQuery) (bary : BaryQuery)
    (ag : Geometry) (w : List Row) (ve : List (ℕ × Vec3)) :
    wle w (reverseFold bvh bary max ag w ve) := by
  unfold reverseFold
  apply foldl_wle
  intro s p _
  rcases hbv : bvh p.2 with _ | h
  · simp only [hbv]
    exact wle_refl s
  · simp only [hbv]
    apply foldl_wle
    intro s' q _
    exact wle_modifyIdx s' q.1 _ (fun d => rle_dset_max d p.1 _)

theorem wle_reverseFold_add (bvh : BvhQuery) (bary : BaryQuery)
    (ag : Geometry) (w : List Row) (ve : List (ℕ × Vec3))
    (hb : ∀ vs loc b, b ∈ bary vs loc → 0 ≤ b)
    (hh : ∀ v h, bvh v = some h → h.fdist ≤ dist_thresh) :
    wle w (reverseFold bvh bary (fun a b => a + b) ag w ve) := by
  unfold reverseFold
  apply foldl_wle
  intro s p _
  rcases hbv : bvh p.2 with _ | h
  · simp only [hbv]
    exact wle_refl s
  · simp only [hbv]
    apply foldl_wle
    rintro s' ⟨qi, qb⟩ hq
    apply wle_modifyIdx
    intro d
    apply rle_dset_add
    have hq2 : 0 ≤ qb := hb _ _ _ (List.of_mem_zip hq).2
    have hfd : 0 ≤ (1 - h.fdist / dist_thresh) / max h.fdist (1 / 10 ^ 15) := by
      apply div_nonneg
      · have hle := hh p.2 h hbv
        have h1 : h.fdist / dist_thresh ≤ 1 := by
          rw [div_le_one (by norm_num [dist_thresh])]
          exact hle
        linarith
      · have h0 : (0 : ℚ) < 1 / 10 ^ 15 := by norm_num
        exact le_of_lt (lt_of_lt_of_le h0 (le_max_right _ _))
    exact mul_nonneg hq2 hfd

/-- **C10** (confirmed): the accumulation passes never decrease any weight
entry and never remove an existing entry.  First conjunct:
`calc_weights_direct` (max reduction).  Second: `calc_weights_reverse`
with the default `max` reduction.  Third: `calc_weights_reverse` with the
additive reduction, whose contributions are nonnegative whenever the
barycentric oracle returns nonnegative weights and every surface hit lies
within the `0.1` search radius (both guaranteed by `mathutils` on real
meshes).  `wle` states: every (row, key) entry of the input survives in
the output with a value at least as large. -/
theorem C10_passes_monotone :
    (∀ (bvh : BvhQuery) (bary : BaryQuery) (w : List Row) (g : Geometry)
        (av : List Vec3), wle w (calc_weights_direct bvh bary w g av)) ∧
    (∀ (bvh : BvhQuery) (bary : BaryQuery) (w : List Row) (g ag : Geometry)
        (w' : List Row),
        calc_weights_reverse bvh bary w (PyCharGeom.geom g) ag max =
          Except.ok w' → wle w w') ∧
    (∀ (bvh : BvhQuery) (bary : BaryQuery) (w : List Row) (g ag : Geometry)
        (w' : List Row),
        (∀ vs loc b, b ∈ bary vs loc → 0 ≤ b) →
        (∀ v h, bvh v = some h → h.fdist ≤ dist_thresh) →
        calc_weights_reverse bvh bary w (PyCharGeom.geom g) ag
            (fun a b => a + b) = Except.ok w' →
        wle w w') := by
  refine ⟨wle_calc_weights_direct, ?_, ?_⟩
  · intro bvh bary w g ag w' heq
    have : w' = reverseFold bvh bary max ag w g.verts_enum := by
      simpa [calc_weights_reverse, pyVertsEnum, Bind.bind, Except.bind] using
        heq.symm
    rw [this]
    exact wle_reverseFold_max bvh bary ag w g.verts_enum
  · intro bvh bary w g ag w' hb hh heq
    have : w' = reverseFold bvh bary (fun a b => a + b) ag w g.verts_enum := by
      simpa [calc_weights_reverse, pyVertsEnum, Bind.bind, Except.bind] using
        heq.symm
    rw [this]
    exact wle_reverseFold_add bvh bary ag w g.verts_enum hb hh

/-- Witness for C10: concrete instantiations of all three conjuncts — a
one-entry table through the direct pass, and the reverse pass (max and
sum) on an empty character geometry, where the result is the unchanged
table. -/
theorem C10_passes_monotone_witness :
    wle [[(0, 1)]] (calc_weights_direct (fun _ => none) (fun _ _ => [])
      [[(0, 1)]] ⟨[], []⟩ []) ∧
    wle [[(0, 1)]] [[(0, 1)]] ∧ wle [[(0, 1)]] [[(0, 1)]] :=
  ⟨C10_passes_monotone.1 (fun _ => none) (fun _ _ => []) [[(0, 1)]]
      ⟨[], []⟩ [],
    C10_passes_monotone.2.1 (fun _ => none) (fun _ _ => []) [[(0, 1)]]
      ⟨[], []⟩ ⟨[], []⟩ [[(0, 1)]] rfl,
    C10_passes_monotone.2.2 (fun _ => none) (fun _ _ => []) [[(0, 1)]]
      ⟨[], []⟩ ⟨[], []⟩ [[(0, 1)]] (by simp) (by simp) rfl⟩

/-! ### C5: exact characterization of the direct surface pass -/

theorem length_foldl_directStep (bvh : BvhQuery) (bary : BaryQuery)
    (g : Geometry) :
    ∀ (ps : List (ℕ × Vec3)) (w : List Row),
      (ps.foldl (directStep bvh bary g) w).length = w.length
  | [], _ => rfl
  | p :: t, w => by
    rw [List.foldl_cons, length_foldl_directStep bvh bary g t]
    unfold directStep
    cases bvh p.2 <;> simp [length_modifyIdx]

theorem foldl_directStep_untouched (bvh : BvhQuery) (bary : BaryQuery)
    (g : Geometry) :
    ∀ (ps : List (ℕ × Vec3)) (w : List Row) (j : ℕ),
      j ∉ ps.map Prod.fst →
      (ps.foldl (directStep bvh bary g) w).getD j [] = w.getD j []
  | [], _, _, _ => rfl
  | p :: t, w, j, hj => by
    simp only [List.map_cons, List.mem_cons, not_or] at hj
    rw [List.foldl_cons,
      foldl_directStep_untouched bvh bary g t _ j (by simpa using hj.2)]
    unfold directStep
    cases bvh p.2 with
    | none => rfl
    | some h => exact getD_modifyIdx_ne w p.1 j _ [] hj.1

theorem directStep_row_self (bvh : BvhQuery) (bary : BaryQuery)
    (g : Geometry) (w : List Row) (i : ℕ) (v : Vec3) (hi : i < w.length) :
    (directStep bvh bary g w (i, v)).getD i [] =
      match bvh v with
      | none => w.getD i []
      | some h => directRowUpdate bary g h (w.getD i []) := by
  show (match bvh v with
    | none => w
    | some h => modifyIdx w i (directRowUpdate bary g h)).getD i [] = _
  rcases hbv : bvh v with _ | h
  · rfl
  · exact getD_modifyIdx_self w i _ [] hi

theorem calc_direct_row (bvh : BvhQuery) (bary : BaryQuery) (g : Geometry)
    (weights : List Row) (asset_verts : List Vec3)
    (hlen : asset_verts.length ≤ weights.length) (i : ℕ) (v : Vec3)
    (hmem : (i, v) ∈ asset_verts.enum) :
    (calc_weights_direct bvh bary weights g asset_verts).getD i [] =
      match bvh v with
      | none => weights.getD i []
      | some h => directRowUpdate bary g h (weights.getD i []) := by
  obtain ⟨s, t, henum⟩ := List.append_of_mem hmem
  have hnd : ((asset_verts.enum).map Prod.fst).Nodup := by
    rw [List.enum_map_fst]
    exact List.nodup_range _
  rw [henum, List.map_append, List.map_cons, List.nodup_append] at hnd
  have his : i ∉ s.map Prod.fst :=
    fun hin => hnd.2.2 hin (List.mem_cons_self _ _)
  have hit : i ∉ t.map Prod.fst := (List.nodup_cons.mp hnd.2.1).1
  have hi : i < asset_verts.length := by
    have hmm : i ∈ (asset_verts.enum).map Prod.fst :=
      List.mem_map_of_mem Prod.fst hmem
    rw [List.enum_map_fst] at hmm
    exact List.mem_range.mp hmm
  unfold calc_weights_direct
  rw [henum, List.foldl_append, List.foldl_cons,
    foldl_directStep_untouched bvh bary g t _ i hit]
  have hmid : (s.foldl (directStep bvh bary g) weights).getD i [] =
      weights.getD i [] :=
    foldl_directStep_untouched bvh bary g s weights i his
  have hmidlen : (s.foldl (directStep bvh bary g) weights).length =
      weights.length := length_foldl_directStep bvh bary g s weights
  rw [directStep_row_self bvh bary g _ i v (by omega), hmid]

theorem foldl_dset_max_not_mem (c : ℚ) :
    ∀ (pairs : List (ℕ × ℚ)) (d : Row) (k : ℕ),
      k ∉ pairs.map Prod.fst →
      alookup
        (pairs.foldl (fun d q => dset d q.1 (max (dget d q.1 0) (q.2 * c))) d)
        k = alookup d k
  | [], _, _, _ => rfl
  | q :: t, d, k, hk => by
    simp only [List.map_cons, List.mem_cons, not_or] at hk
    rw [List.foldl_cons, foldl_dset_max_not_mem c t _ k (by simpa using hk.2),
      alookup_dset_ne d q.1 _ k hk.1]

theorem foldl_dset_max_mem (c : ℚ) :
    ∀ (pairs : List (ℕ × ℚ)) (d : Row), (pairs.map Prod.fst).Nodup →
      ∀ p ∈ pairs,
        alookup
          (pairs.foldl (fun d q => dset d q.1 (max (dget d q.1 0) (q.2 * c))) d)
          p.1 = some (max (dget d p.1 0) (p.2 * c))
  | [], _, _, p, hp => absurd hp (List.not_mem_nil p)
  | q :: t, d, hnd, p, hp => by
    rw [List.map_cons, List.nodup_cons] at hnd
    rw [List.foldl_cons]
    rcases List.mem_cons.mp hp with hpq | hpt
    · subst hpq
      rw [foldl_dset_max_not_mem c t _ p.1 hnd.1]
      exact alookup_dset_self d p.1 _
    · have hne : p.1 ≠ q.1 := by
        intro he
        exact hnd.1 (he ▸ List.mem_map_of_mem Prod.fst hpt)
      rw [foldl_dset_max_mem c t _ hnd.2 p hpt, dget_eq_alookup,
        alookup_dset_ne d q.1 _ p.1 hne, ← dget_eq_alookup]

theorem directRowUpdate_mem (bary : BaryQuery) (g : Geometry) (h : Hit)
    (d : Row) (hnd : ((facePairs bary g.verts g.faces h).map Prod.fst).Nodup)
    (p : ℕ × ℚ) (hp : p ∈ facePairs bary g.verts g.faces h) :
    alookup (directRowUpdate bary g h d) p.1 =
      some (max (dget d p.1 0) (p.2 * fdScale h)) :=
  foldl_dset_max_mem (fdScale h) _ d hnd p hp

theorem directRowUpdate_not_mem (bary : BaryQuery) (g : Geometry) (h : Hit)
    (d : Row) (k : ℕ)
    (hk : k ∉ (facePairs bary g.verts g.faces h).map Prod.fst) :
    alookup (directRowUpdate bary g h d) k = alookup d k :=
  foldl_dset_max_not_mem (fdScale h) _ d k hk

/-- **C5** (confirmed): for every asset query vertex `(i, v)` processed by
`calc_weights_direct`: a BVH miss (`find_nearest` returns no point within
the `0.1` radius) leaves row `i` exactly unchanged; on a hit, for each
vertex of the hit face (paired with its barycentric weight, the face
having no repeated vertex), the row entry becomes
`max(existing, bw * (1 - fdist/0.1)/max(fdist, 1e-30))` (`fdScale`),
entries outside the hit face are untouched, and no existing entry of the
row decreases (`rle`). -/
theorem C5_direct_pass_row_exact (bvh : BvhQuery) (bary : BaryQuery)
    (g : Geometry) (weights : List Row) (asset_verts : List Vec3)
    (hlen : asset_verts.length ≤ weights.length) (i : ℕ) (v : Vec3)
    (hmem : (i, v) ∈ asset_verts.enum) :
    (bvh v = none →
      (calc_weights_direct bvh bary weights g asset_verts).getD i [] =
        weights.getD i []) ∧
    (∀ h : Hit, bvh v = some h →
      (((facePairs bary g.verts g.faces h).map Prod.fst).Nodup →
        ∀ p ∈ facePairs bary g.verts g.faces h,
          alookup
            ((calc_weights_direct bvh bary weights g asset_verts).getD i [])
            p.1 =
            some (max (dget (weights.getD i []) p.1 0) (p.2 * fdScale h))) ∧
      (∀ k, k ∉ (facePairs bary g.verts g.faces h).map Prod.fst →
        alookup
          ((calc_weights_direct bvh bary weights g asset_verts).getD i [])
          k = alookup (weights.getD i []) k)) ∧
    rle (weights.getD i [])
      ((calc_weights_direct bvh bary weights g asset_verts).getD i []) := by
  have hrow := calc_direct_row bvh bary g weights asset_verts hlen i v hmem
  refine ⟨?_, ?_, (wle_calc_weights_direct bvh bary weights g asset_verts).2 i⟩
  · intro hb
    rw [hrow, hb]
  · intro h hb
    rw [hrow, hb] at *
    exact ⟨fun hnd p hp => directRowUpdate_mem bary g h _ hnd p hp,
      fun k hk => directRowUpdate_not_mem bary g h _ k hk⟩

/-- Witness for C5: a unit triangle character face hit at distance `1/20`
with barycentric weights `[1/2, 1/4, 1/4]`; the entry of face vertex `0`
in the (initially empty) row of the single asset vertex becomes
`max(0, 1/2 * fdScale)`. -/
theorem C5_direct_pass_row_exact_witness :
    alookup
      ((calc_weights_direct (fun _ => some ⟨(0, 0, 0), 0, 1/20⟩)
          (fun _ _ => [1/2, 1/4, 1/4]) [[]]
          ⟨[(0, 0, 0), (1, 0, 0), (0, 1, 0)], [[0, 1, 2]]⟩
          [(0, 0, 0)]).getD 0 []) 0 =
      some (max (dget (([[]] : List Row).getD 0 []) 0 0)
        ((1/2 : ℚ) * fdScale ⟨(0, 0, 0), 0, 1/20⟩)) :=
  ((C5_direct_pass_row_exact (fun _ => some ⟨(0, 0, 0), 0, 1/20⟩)
      (fun _ _ => [1/2, 1/4, 1/4])
      ⟨[(0, 0, 0), (1, 0, 0), (0, 1, 0)], [[0, 1, 2]]⟩ [[]]
      [(0, 0, 0)] (by norm_num) 0 (0, 0, 0)
      (by simp [List.enum])).2.1 ⟨(0, 0, 0), 0, 1/20⟩ rfl).1
    (by simp [facePairs, gatherVerts])
    (0, 1/2) (by simp [facePairs, gatherVerts])

/-! ### C4: the rigger 4-nearest reverse pass covers every character vertex -/

theorem rigger_contrib_pos (dd : ℚ) : 0 < 1 / max (dd ^ 2) repsilon := by
  apply div_pos one_pos
  have h : (0 : ℚ) < repsilon := by norm_num [repsilon]
  exact lt_of_lt_of_le h (le_max_right _ _)

theorem alookup_dset_cases (d : Row) (i : ℕ) (w : ℚ) (k : ℕ) (v : ℚ)
    (h : alookup (dset d i w) k = some v) :
    v = w ∨ alookup d k = some v := by
  by_cases hk : k = i
  · subst hk
    rw [alookup_dset_self] at h
    exact Or.inl (Option.some.inj h).symm
  · rw [alookup_dset_ne d i w k hk] at h
    exact Or.inr h

theorem dget_nonneg_of_row (d : Row)
    (hnn : ∀ k v, alookup d k = some v → 0 ≤ v) (i : ℕ) :
    0 ≤ dget d i 0 := by
  rw [dget_eq_alookup]
  cases h : alookup d i with
  | none => simp
  | some w => simpa using hnn i w h

theorem wnn_riggerInnerStep (i : ℕ) (s : List Row) (q : ℕ × ℚ)
    (hs : wnn s) : wnn (riggerInnerStep i s q) := by
  intro j k v hv
  unfold riggerInnerStep at hv
  by_cases hj : j = q.1
  · rw [hj] at hv
    by_cases hlt : q.1 < s.length
    · rw [getD_modifyIdx_self _ _ _ [] hlt] at hv
      rcases alookup_dset_cases _ _ _ _ _ hv with rfl | hold
      · have h0 : 0 ≤ dget (s.getD q.1 []) i 0 :=
          dget_nonneg_of_row _ (fun k v h => hs q.1 k v h) i
        have hc := rigger_contrib_pos q.2
        linarith
      · exact hs q.1 k v hold
    · rw [modifyIdx_of_ge _ _ _ (le_of_not_lt hlt)] at hv
      exact hs q.1 k v hv
  · rw [getD_modifyIdx_ne _ _ _ _ [] hj] at hv
    exact hs j k v hv

theorem foldl_wnn {β : Type} (step : List Row → β → List Row) (l : List β)
    (s : List Row) (h : ∀ s x, x ∈ l → wnn s → wnn (step s x)) (hs : wnn s) :
    wnn (l.foldl step s) := by
  induction l generalizing s with
  | nil => exact hs
  | cons x t ih =>
    exact ih (step s x) (fun s' y hy => h s' y (List.mem_cons_of_mem x hy))
      (h s x (List.mem_cons_self x t) hs)

theorem wle_riggerInnerStep (i : ℕ) (s : List Row) (q : ℕ × ℚ) :
    wle s (riggerInnerStep i s q) :=
  wle_modifyIdx s q.1 _
    (fun d => rle_dset_add d i _ (le_of_lt (rigger_contrib_pos q.2)))

theorem wle_riggerOuterStep (dist : Vec3 → Vec3 → ℚ)
    (asset_verts : List Vec3) (s : List Row) (p : ℕ × Vec3) :
    wle s (riggerOuterStep dist asset_verts s p) :=
  foldl_wle _ _ s (fun s' q _ => wle_riggerInnerStep p.1 s' q)

theorem wnn_riggerOuterStep (dist : Vec3 → Vec3 → ℚ)
    (asset_verts : List Vec3) (s : List Row) (p : ℕ × Vec3) (hs : wnn s) :
    wnn (riggerOuterStep dist asset_verts s p) :=
  foldl_wnn _ _ s (fun s' q _ hw => wnn_riggerInnerStep p.1 s' q hw) hs

theorem find_n_fst_lt (dist : Vec3 → Vec3 → ℚ) (verts : List Vec3)
    (p : Vec3) (n : ℕ) :
    ∀ q ∈ find_n dist verts.enum p n, q.1 < verts.length := by
  intro q hq
  unfold find_n at hq
  have h1 := List.take_subset n _ hq
  have h2 : q ∈ (verts.enum).map (fun e => (e.1, dist p e.2)) :=
    (List.perm_insertionSort kdLe _).subset h1
  obtain ⟨e, he, heq⟩ := List.mem_map.mp h2
  have hq1 : q.1 = e.1 := by rw [← heq]
  rw [hq1]
  have hm : e.1 ∈ (verts.enum).map Prod.fst := List.mem_map_of_mem _ he
  rw [List.enum_map_fst] at hm
  exact List.mem_range.mp hm

theorem find_n_length (dist : Vec3 → Vec3 → ℚ) (ve : List (ℕ × Vec3))
    (p : Vec3) (n : ℕ) :
    (find_n dist ve p n).length = min n ve.length := by
  unfold find_n
  rw [List.length_take, (List.perm_insertionSort kdLe _).length_eq,
    List.length_map]

theorem riggerInnerStep_lookup (i : ℕ) (s : List Row) (q : ℕ × ℚ)
    (hlt : q.1 < s.length) :
    alookup ((riggerInnerStep i s q).getD q.1 []) i =
      some (dget (s.getD q.1 []) i 0 + 1 / max (q.2 ^ 2) repsilon) := by
  show alookup ((modifyIdx s q.1 _).getD q.1 []) i = _
  rw [getD_modifyIdx_self _ _ _ [] hlt]
  exact alookup_dset_self _ _ _

theorem riggerInner_entry (i : ℕ) (pairs : List (ℕ × ℚ)) (s : List Row)
    (hs : wnn s) (q : ℕ × ℚ) (hq : q ∈ pairs) (hlt : q.1 < s.length) :
    ∃ w', alookup ((pairs.foldl (riggerInnerStep i) s).getD q.1 []) i =
        some w' ∧ 1 / max (q.2 ^ 2) repsilon ≤ w' := by
  obtain ⟨l1, l2, hsplit⟩ := List.append_of_mem hq
  subst hsplit
  rw [List.foldl_append, List.foldl_cons]
  have hs1 : wnn (l1.foldl (riggerInnerStep i) s) :=
    foldl_wnn _ _ s (fun s' x _ hw => wnn_riggerInnerStep i s' x hw) hs
  have hlen1 : s.length = (l1.foldl (riggerInnerStep i) s).length :=
    (foldl_wle (riggerInnerStep i) l1 s
      (fun s' x _ => wle_riggerInnerStep i s' x)).1
  have hlook := riggerInnerStep_lookup i (l1.foldl (riggerInnerStep i) s) q
    (by omega)
  have hge : 1 / max (q.2 ^ 2) repsilon ≤
      dget ((l1.foldl (riggerInnerStep i) s).getD q.1 []) i 0 +
        1 / max (q.2 ^ 2) repsilon := by
    have h0 := dget_nonneg_of_row _ (fun k v h => hs1 q.1 k v h) i
    linarith
  have hwle := foldl_wle (riggerInnerStep i) l2
    (riggerInnerStep i (l1.foldl (riggerInnerStep i) s) q)
    (fun s' x _ => wle_riggerInnerStep i s' x)
  obtain ⟨w2, hl2, hle2⟩ := hwle.2 q.1 i _ hlook
  exact ⟨w2, hl2, le_trans hge hle2⟩

/-- **C4** (confirmed): after `RiggerFitCalculator._calc_weights_kd_reverse`
(on a weight table with one row per asset vertex, all entries nonnegative
— as produced by the preceding KD seeding pass), every character vertex
`(i, vert)` of the character enumeration appears in the row of each of its
4 nearest asset vertices `(vi, dist)` with an entry at least the positive
contribution `1 / max(dist², 1e-5)`; consequently (second conjunct), as
soon as the asset has at least 4 vertices, every character vertex id
appears in at least one produced row with positive weight. -/
theorem C4_rigger_reverse_coverage (dist : Vec3 → Vec3 → ℚ)
    (weights : List Row) (charEnum : List (ℕ × Vec3))
    (asset_verts : List Vec3)
    (hw : weights.length = asset_verts.length) (hnn : wnn weights)
    (i : ℕ) (vert : Vec3) (hmem : (i, vert) ∈ charEnum) :
    (∀ q ∈ find_n dist asset_verts.enum vert 4,
      ∃ w', alookup
          ((riggerKdReverse dist weights charEnum asset_verts).getD q.1 [])
          i = some w' ∧
        1 / max (q.2 ^ 2) repsilon ≤ w' ∧ 0 < w') ∧
    (4 ≤ asset_verts.length →
      ∃ vi, vi < (riggerKdReverse dist weights charEnum asset_verts).length ∧
        ∃ w', alookup
            ((riggerKdReverse dist weights charEnum asset_verts).getD vi [])
            i = some w' ∧ 0 < w') := by
  have hmain : ∀ q ∈ find_n dist asset_verts.enum vert 4,
      ∃ w', alookup
          ((riggerKdReverse dist weights charEnum asset_verts).getD q.1 [])
          i = some w' ∧ 1 / max (q.2 ^ 2) repsilon ≤ w' ∧ 0 < w' := by
    intro q hq
    obtain ⟨pre, post, hsplit⟩ := List.append_of_mem hmem
    unfold riggerKdReverse
    rw [hsplit, List.foldl_append, List.foldl_cons]
    have hs0 : wnn (pre.foldl (riggerOuterStep dist asset_verts) weights) :=
      foldl_wnn _ _ weights
        (fun s' x _ hw' => wnn_riggerOuterStep dist asset_verts s' x hw') hnn
    have hlen0 : weights.length =
        (pre.foldl (riggerOuterStep dist asset_verts) weights).length :=
      (foldl_wle (riggerOuterStep dist asset_verts) pre weights
        (fun s' x _ => wle_riggerOuterStep dist asset_verts s' x)).1
    have hqlt : q.1 < asset_verts.length :=
      find_n_fst_lt dist asset_verts vert 4 q hq
    have hstep := riggerInner_entry i (find_n dist asset_verts.enum vert 4)
      (pre.foldl (riggerOuterStep dist asset_verts) weights) hs0 q hq
      (by omega)
    obtain ⟨w1, hl1, hb1⟩ := hstep
    have hwle := foldl_wle (riggerOuterStep dist asset_verts) post
      (riggerOuterStep dist asset_verts
        (pre.foldl (riggerOuterStep dist asset_verts) weights) (i, vert))
      (fun s' x _ => wle_riggerOuterStep dist asset_verts s' x)
    have hl1' : alookup ((riggerOuterStep dist asset_verts
        (pre.foldl (riggerOuterStep dist asset_verts) weights)
        (i, vert)).getD q.1 []) i = some w1 := hl1
    obtain ⟨w2, hl2, hle2⟩ := hwle.2 q.1 i w1 hl1'
    refine ⟨w2, hl2, le_trans hb1 hle2, ?_⟩
    have := rigger_contrib_pos q.2
    linarith
  refine ⟨hmain, fun h4 => ?_⟩
  have hpos : 0 < (find_n dist asset_verts.enum vert 4).length := by
    rw [find_n_length]
    simp only [List.enum_length]
    omega
  obtain ⟨q, hq⟩ := List.exists_mem_of_length_pos hpos
  obtain ⟨w', hl, _, hwpos⟩ := hmain q hq
  have hqlt : q.1 < asset_verts.length :=
    find_n_fst_lt dist asset_verts vert 4 q hq
  have hlenr : weights.length =
      (riggerKdReverse dist weights charEnum asset_verts).length :=
    (foldl_wle (riggerOuterStep dist asset_verts) charEnum weights
      (fun s' x _ => wle_riggerOuterStep dist asset_verts s' x)).1
  exact ⟨q.1, by omega, w', hl, hwpos⟩

/-- Witness for C4: asset = 4 collinear vertices, character = one vertex
at the origin (coinciding with asset vertex 0, KD distance 0), empty
initial rows: after the pass, row 0 holds character vertex 0 with weight
at least `1 / max(0, 1e-5) = 100000 > 0`. -/
theorem C4_rigger_reverse_coverage_witness :
    ∃ w', alookup
        ((riggerKdReverse sqDist [[], [], [], []] [(0, ((0 : ℚ), 0, 0))]
            [((0 : ℚ), 0, 0), (1, 0, 0), (2, 0, 0), (3, 0, 0)]).getD 0 [])
        0 = some w' ∧
      1 / max ((0 : ℚ) ^ 2) repsilon ≤ w' ∧ 0 < w' :=
  (C4_rigger_reverse_coverage sqDist [[], [], [], []] [(0, (0, 0, 0))]
      [(0, 0, 0), (1, 0, 0), (2, 0, 0), (3, 0, 0)] rfl
      (by
        intro j k v hv
        rcases j with _ | _ | _ | _ | j <;> simp [alookup, List.getD] at hv)
      0 (0, 0, 0) (by simp)).1
    (0, 0)
    (by norm_num [find_n, sqDist, kdLe, List.enum, List.enumFrom,
      List.insertionSort, List.orderedInsert])

/-! ### C6: the nearest-vertex fallback rows -/

instance : IsTotal (ℕ × ℚ) kdLe :=
  ⟨by
    intro a b
    unfold kdLe
    rcases lt_trichotomy a.2 b.2 with h | h | h
    · exact Or.inl (Or.inl h)
    · rcases le_total a.1 b.1 with hi | hi
      · exact Or.inl (Or.inr ⟨h, hi⟩)
      · exact Or.inr (Or.inr ⟨h.symm, hi⟩)
    · exact Or.inr (Or.inl h)⟩

instance : IsTrans (ℕ × ℚ) kdLe :=
  ⟨by
    intro a b c hab hbc
    rcases hab with h1 | ⟨h1e, h1i⟩ <;> rcases hbc with h2 | ⟨h2e, h2i⟩
    · exact Or.inl (lt_trans h1 h2)
    · exact Or.inl (by rw [← h2e]; exact h1)
    · exact Or.inl (by rw [h1e]; exact h2)
    · exact Or.inr ⟨h1e.trans h2e, le_trans h1i h2i⟩⟩

theorem mapM_ok {α β : Type} (f : α → Except String β) (g : α → β) :
    ∀ l : List α, (∀ x ∈ l, f x = Except.ok (g x)) →
      l.mapM f = Except.ok (l.map g)
  | [], _ => rfl
  | x :: t, h => by
    rw [List.mapM_cons, h x (List.mem_cons_self x t),
      mapM_ok f g t (fun y hy => h y (List.mem_cons_of_mem x hy))]
    rfl

theorem kdRow_ok (pdata : List (ℕ × ℚ)) (eps : ℚ) (hne : pdata ≠ [])
    (hmax : listMax (pdata.map Prod.snd) ≠ 0) :
    kdRow pdata eps = Except.ok (pdata.map (fun q =>
      (q.1, (1 - q.2 / listMax (pdata.map Prod.snd)) / max q.2 eps))) := by
  unfold kdRow
  rw [if_neg hne, if_neg hmax]

theorem find_n_subset_candidates (dist : Vec3 → Vec3 → ℚ)
    (ve : List (ℕ × Vec3)) (p : Vec3) (n : ℕ) :
    ∀ q ∈ find_n dist ve p n, q ∈ ve.map (fun e => (e.1, dist p e.2)) := by
  intro q hq
  unfold find_n at hq
  exact (List.perm_insertionSort kdLe _).subset (List.take_subset n _ hq)

theorem find_n_fst_nodup (dist : Vec3 → Vec3 → ℚ) (verts : List Vec3)
    (p : Vec3) (n : ℕ) :
    ((find_n dist verts.enum p n).map Prod.fst).Nodup := by
  have h1 : (((verts.enum).map (fun e => (e.1, dist p e.2))).map
      Prod.fst).Nodup := by
    rw [List.map_map]
    have hc : (Prod.fst ∘ fun e : ℕ × Vec3 => (e.1, dist p e.2)) =
        Prod.fst := rfl
    rw [hc, List.enum_map_fst]
    exact List.nodup_range _
  have h2 : ((List.insertionSort kdLe
      ((verts.enum).map (fun e => (e.1, dist p e.2)))).map Prod.fst).Nodup :=
    (List.Perm.nodup_iff
      ((List.perm_insertionSort kdLe _).map Prod.fst)).mpr h1
  exact List.Nodup.sublist ((List.take_sublist n _).map Prod.fst) h2

theorem find_n_is_nearest (dist : Vec3 → Vec3 → ℚ) (ve : List (ℕ × Vec3))
    (p : Vec3) (n : ℕ) :
    ∀ b ∈ ve.map (fun e => (e.1, dist p e.2)), b ∉ find_n dist ve p n →
      ∀ a ∈ find_n dist ve p n, a.2 ≤ b.2 := by
  intro b hb hnb a ha
  have hsorted : List.Sorted kdLe
      (List.insertionSort kdLe (ve.map (fun e => (e.1, dist p e.2)))) :=
    List.sorted_insertionSort kdLe _
  have hbl : b ∈ List.insertionSort kdLe
      (ve.map (fun e => (e.1, dist p e.2))) :=
    (List.perm_insertionSort kdLe _).mem_iff.mpr hb
  rw [← List.take_append_drop n
    (List.insertionSort kdLe (ve.map (fun e => (e.1, dist p e.2))))] at hbl
  have hbdrop : b ∈ (List.insertionSort kdLe
      (ve.map (fun e => (e.1, dist p e.2)))).drop n := by
    rcases List.mem_append.mp hbl with h | h
    · exact absurd h hnb
    · exact h
  have hpw := hsorted
  rw [List.Sorted, ← List.take_append_drop n
    (List.insertionSort kdLe (ve.map (fun e => (e.1, dist p e.2)))),
    List.pairwise_append] at hpw
  have hrel := hpw.2.2 a ha b hbdrop
  rcases hrel with h | ⟨h, _⟩
  · exact le_of_lt h
  · exact le_of_eq h

/-- **C6** (amended; confirmed away from the degenerate case): for every
query vertex set and every character geometry with at least `n` vertices
(`n = 16` for asset fitting), provided no query point has all of its `n`
nearest character vertices at distance `0` (the amendment forced by the
counterexample), `calc_weights_kd` returns one row per query point — the
first conjunct gives every row exactly: the dict over the `n` nearest
character vertices, each mapped to `(1 - dist/maxdist) / max(dist, eps)`
with `maxdist` the largest of the `n` distances.  The second conjunct
states the "exactly the N nearest" reading: the support of each row has
exactly `n` pairwise-distinct character vertex ids, all valid, and every
candidate vertex left out of the row is at least as far as every selected
one. -/
theorem C6_kd_fallback_rows (dist : Vec3 → Vec3 → ℚ) (g : Geometry)
    (qverts : List Vec3) (eps : ℚ) (n : ℕ) (hn : 0 < n)
    (hlen : n ≤ g.verts.length)
    (hmax : ∀ v ∈ qverts,
      listMax ((find_n dist g.verts_enum v n).map Prod.snd) ≠ 0) :
    calc_weights_kd dist g.verts_enum qverts eps n =
      Except.ok (qverts.map (fun v =>
        (find_n dist g.verts_enum v n).map (fun q =>
          (q.1, (1 - q.2 /
            listMax ((find_n dist g.verts_enum v n).map Prod.snd)) /
            max q.2 eps)))) ∧
    ∀ v ∈ qverts,
      (find_n dist g.verts_enum v n).length = n ∧
      ((find_n dist g.verts_enum v n).map Prod.fst).Nodup ∧
      (∀ q ∈ find_n dist g.verts_enum v n, q.1 < g.verts.length) ∧
      (∀ b ∈ g.verts_enum.map (fun e => (e.1, dist v e.2)),
        b ∉ find_n dist g.verts_enum v n →
        ∀ a ∈ find_n dist g.verts_enum v n, a.2 ≤ b.2) := by
  have hlenn : ∀ v, (find_n dist g.verts_enum v n).length = n := by
    intro v
    rw [show g.verts_enum = g.verts.enum from rfl, find_n_length,
      List.enum_length]
    omega
  constructor
  · unfold calc_weights_kd
    apply mapM_ok
    intro v hv
    exact kdRow_ok _ eps
      (List.ne_nil_of_length_pos (by rw [hlenn v]; omega)) (hmax v hv)
  · intro v hv
    exact ⟨hlenn v, find_n_fst_nodup dist g.verts v n,
      find_n_fst_lt dist g.verts v n,
      find_n_is_nearest dist g.verts_enum v n⟩

theorem foldl_max_all (c : ℚ) :
    ∀ (t : List ℚ) (x : ℚ), x = c → (∀ y ∈ t, y = c) → t.foldl max x = c
  | [], _, hx, _ => hx
  | y :: t, x, hx, h => by
    rw [List.foldl_cons]
    exact foldl_max_all c t (max x y)
      (by rw [hx, h y (List.mem_cons_self y t)]; exact max_self c)
      (fun z hz => h z (List.mem_cons_of_mem y hz))

theorem listMax_all_eq (c : ℚ) (l : List ℚ) (hne : l ≠ [])
    (h : ∀ x ∈ l, x = c) : listMax l = c := by
  cases l with
  | nil => exact absurd rfl hne
  | cons x t =>
    exact foldl_max_all c t x (h x (List.mem_cons_self x t))
      (fun z hz => h z (List.mem_cons_of_mem x hz))

/-- **C6** (counterexample): with 16 character vertices all at the origin
and the query point at the origin, all 16 nearest distances are `0`, so
`maxdist = 0` and the Python expression `1 - dist / maxdist` raises
`ZeroDivisionError` — `calc_weights_kd` does *not* return a row for every
query point over every geometry with at least `N` vertices, refuting the
unconditional claim. -/
theorem C6_cex_degenerate_crashes :
    calc_weights_kd sqDist
        ((List.replicate 16 ((0 : ℚ), (0 : ℚ), (0 : ℚ))).enum)
        [((0 : ℚ), 0, 0)] epsilon 16 =
      Except.error "ZeroDivisionError: float division by zero" := by
  have hne : find_n sqDist
      ((List.replicate 16 ((0 : ℚ), (0 : ℚ), (0 : ℚ))).enum)
      ((0 : ℚ), 0, 0) 16 ≠ [] := by
    apply List.ne_nil_of_length_pos
    rw [find_n_length, List.enum_length, List.length_replicate]
    norm_num
  have hall : ∀ q ∈ find_n sqDist
      ((List.replicate 16 ((0 : ℚ), (0 : ℚ), (0 : ℚ))).enum)
      ((0 : ℚ), 0, 0) 16, q.2 = 0 := by
    intro q hq
    have hc := find_n_subset_candidates sqDist _ _ 16 q hq
    obtain ⟨e, he, heq⟩ := List.mem_map.mp hc
    have he2 : e.2 = ((0 : ℚ), (0 : ℚ), (0 : ℚ)) := by
      have hm : e.2 ∈ List.map Prod.snd
          ((List.replicate 16 ((0 : ℚ), (0 : ℚ), (0 : ℚ))).enum) :=
        List.mem_map_of_mem _ he
      rw [List.enum_map_snd] at hm
      exact List.eq_of_mem_replicate hm
    have hq2 : q.2 = sqDist ((0 : ℚ), 0, 0) e.2 := by rw [← heq]
    rw [hq2, he2]
    norm_num [sqDist]
  have hmax0 : listMax ((find_n sqDist
      ((List.replicate 16 ((0 : ℚ), (0 : ℚ), (0 : ℚ))).enum)
      ((0 : ℚ), 0, 0) 16).map Prod.snd) = 0 := by
    apply listMax_all_eq
    · simpa using hne
    · intro x hx
      obtain ⟨q, hq, rfl⟩ := List.mem_map.mp hx
      exact hall q hq
  have hrow : kdRow (find_n sqDist
      ((List.replicate 16 ((0 : ℚ), (0 : ℚ), (0 : ℚ))).enum)
      ((0 : ℚ), 0, 0) 16) epsilon =
      Except.error "ZeroDivisionError: float division by zero" := by
    unfold kdRow
    rw [if_neg hne, if_pos hmax0]
  unfold calc_weights_kd
  rw [List.mapM_cons, hrow]
  rfl

/-- Witness for the amended C6: two distinct character vertices, query at
the first one (distances `0` and `1`, so `maxdist = 1 ≠ 0`): the rows are
returned exactly as described. -/
theorem C6_kd_fallback_rows_witness :
    calc_weights_kd sqDist
        (Geometry.verts_enum ⟨[((0 : ℚ), 0, 0), (1, 0, 0)], []⟩)
        [((0 : ℚ), 0, 0)] repsilon 2 =
      Except.ok ([((0 : ℚ), 0, 0)].map (fun v =>
        (find_n sqDist
          (Geometry.verts_enum ⟨[((0 : ℚ), 0, 0), (1, 0, 0)], []⟩)
          v 2).map (fun q =>
          (q.1, (1 - q.2 / listMax ((find_n sqDist
            (Geometry.verts_enum ⟨[((0 : ℚ), 0, 0), (1, 0, 0)], []⟩)
            v 2).map Prod.snd)) / max q.2 repsilon)))) :=
  (C6_kd_fallback_rows sqDist ⟨[((0 : ℚ), 0, 0), (1, 0, 0)], []⟩
    [((0 : ℚ), 0, 0)] repsilon 2 (by norm_num) (by norm_num)
    (by
      intro v hv
      norm_num at hv
      subst hv
      norm_num [find_n, sqDist, kdLe, Geometry.verts_enum, List.enum,
        List.enumFrom, List.insertionSort, List.orderedInsert, listMax])).1
